import Mathlib

/-!
# Vector codec, cosine similarity and retrieval loop of `main.go`

A shallow embedding of the Go program `src/main.go` (texts stored with their embeddings in
a pgvector column, similarity search, client-side cosine check), and the properties of its
specification stated and settled on that embedding.

Modelling conventions

* A Go `string` / `[]byte` is a `List Char`; every character the program produces or
  inspects is ASCII.
* In the vector codec a finite `float64` is an exact rational number (`ℚ`): binary
  rounding, overflow, signed zero, infinities and NaN are idealised away.
* `cosineSimilarity` is written once, over an arbitrary arithmetic `F` and square root. It
  is used with exact arithmetic (an ordered field whose `sqrt` is an exact square root) and
  with `F64`, a model of binary64 with correctly rounded `+`, `*`, `/` and `sqrt`
  (round to nearest, ties to even) that gives up (`F64.outside`) as soon as a result
  leaves the normal range.
* `fmt.Sprintf("%f", v)` is decimal formatting with exactly six digits after the point,
  rounded half-to-even (`strconv.FormatFloat(v, 'f', 6, 64)`).
* `strconv.ParseFloat` is modelled on the decimal grammar
  `[+-] digits [. digits] [(e|E) [+-] digits]` with its exact value; hexadecimal
  literals, digit-separating underscores and the `Inf`/`NaN` spellings are not modelled
  (the model rejects them), and no range error is raised.
* `strings.Trim` and `strings.Split` are modelled on lists of characters.
* The HTTP service and the SQL store are external: their answers are inputs of the model.
  The header line that `querySimilarTexts` prints before the rows is left out.
-/

namespace NomicEmbed

/-! ## Library functions used by the program -/

/-- Decimal digit `d < 10` as a character. -/
def digitChar (d : Nat) : Char := Char.ofNat (48 + d)

/-- Value of a decimal digit character. -/
def digitVal (c : Char) : Nat := c.toNat - 48

/-- Digits of `n`, least significant first; `fuel` bounds the number of digits. -/
def digitsRev : Nat → Nat → List Char
  | 0, _ => []
  | fuel + 1, n => if n < 10 then [digitChar n] else digitChar (n % 10) :: digitsRev fuel (n / 10)

/-- Decimal representation of a natural number without leading zeros (`0` is "0"). -/
def natDigits (n : Nat) : List Char := (digitsRev (n + 1) n).reverse

/-- The last `k` decimal digits of `n`, zero padded, most significant first. -/
def fixedDigits : Nat → Nat → List Char
  | 0, _ => []
  | k + 1, n => fixedDigits k (n / 10) ++ [digitChar (n % 10)]

/-- Number denoted by a list of decimal digit characters, most significant first. -/
def digitsValue (ds : List Char) : Nat := ds.foldl (fun acc c => 10 * acc + digitVal c) 0

/-- Nearest natural number to a non-negative rational, ties going to the even neighbour. -/
def roundHalfEven (q : ℚ) : Nat :=
  let f := ⌊q⌋.toNat
  let r := q - f
  if r < 1 / 2 then f
  else if 1 / 2 < r then f + 1
  else if f % 2 = 0 then f else f + 1

/-- The number of micro-units printed by `%f`: `|v| * 10^6` rounded half-to-even. -/
def microUnits (v : ℚ) : Nat := roundHalfEven (|v| * 1000000)

/-- The text of `fmt.Sprintf("%f", v)`: sign, integer digits, a point and exactly six
decimals. -/
def sprintfF (v : ℚ) : List Char :=
  (if v < 0 then ['-'] else []) ++ natDigits (microUnits v / 1000000) ++ ['.'] ++
    fixedDigits 6 (microUnits v % 1000000)

/-- The rational denoted by the text that `%f` prints for `v`. -/
def printedValue (v : ℚ) : ℚ :=
  if v < 0 then -((microUnits v : ℚ) / 1000000) else (microUnits v : ℚ) / 1000000

/-- Model of `strings.Trim(s, cutset)`: drop the leading and the trailing characters that
are in `cutset`. -/
def stringsTrim (s cutset : List Char) : List Char :=
  ((s.dropWhile (fun c => decide (c ∈ cutset))).rdropWhile (fun c => decide (c ∈ cutset)))

/-- Model of `strings.Split(s, sep)` for a one-character separator: always at least one
piece. -/
def stringsSplit (s : List Char) (sep : Char) : List (List Char) := s.splitOn sep

/-- Optional exponent part of a decimal literal; the whole remainder must be consumed. -/
def parseExponent : List Char → Option Int
  | [] => some 0
  | c :: rest =>
    if c = 'e' ∨ c = 'E' then
      match rest with
      | '+' :: ds => if ds ≠ [] ∧ ds.all Char.isDigit then some (digitsValue ds) else none
      | '-' :: ds =>
        if ds ≠ [] ∧ ds.all Char.isDigit then some (-(digitsValue ds : Int)) else none
      | ds => if ds ≠ [] ∧ ds.all Char.isDigit then some (digitsValue ds) else none
    else none

/-- Unsigned part of a decimal literal: digits, optional point and digits, optional
exponent. -/
def parseUnsigned (s : List Char) : Option ℚ :=
  let ip := s.takeWhile Char.isDigit
  let s2 := s.dropWhile Char.isDigit
  let fp := match s2 with
    | '.' :: t => t.takeWhile Char.isDigit
    | _ => []
  let s3 := match s2 with
    | '.' :: t => t.dropWhile Char.isDigit
    | _ => s2
  if ip = [] ∧ fp = [] then none
  else
    match parseExponent s3 with
    | none => none
    | some e => some ((digitsValue (ip ++ fp) : ℚ) / (10 : ℚ) ^ fp.length * (10 : ℚ) ^ e)

/-- Model of `strconv.ParseFloat(s, 64)` on the decimal grammar; `none` is a syntax error. -/
def parseFloat (s : List Char) : Option ℚ :=
  match s with
  | '+' :: t => parseUnsigned t
  | '-' :: t => (parseUnsigned t).map (fun q => -q)
  | _ => parseUnsigned s

/-! ## The program -/

/-- Errors returned by the functions of `main.go`. -/
inductive Err where
  /-- Message `error al llamar a la API de Ollama`: the HTTP call itself failed. -/
  | apiCall (msg : List Char)
  /-- Message `error en la respuesta de Ollama`: a status other than 200, with the body. -/
  | apiStatus (body : List Char)
  /-- Message `error al decodificar respuesta de Ollama`: the JSON body did not decode. -/
  | apiDecode (msg : List Char)
  /-- Message `error al parsear valor`: a token of a vector literal is not a number. -/
  | parseValue (token : List Char)
  /-- Message `error al convertir embedding`: wraps the error of `parseVector`. -/
  | convertEmbedding (cause : Err)
  /-- An error reported by the SQL driver (`db.Exec`, `db.Query`, `rows.Scan`). -/
  | store (msg : List Char)
  deriving DecidableEq, Repr

instance instDecidableEqExcept {ε α : Type} [DecidableEq ε] [DecidableEq α] :
    DecidableEq (Except ε α)
  | .ok a, .ok b =>
    if h : a = b then isTrue (by rw [h]) else isFalse (by intro h2; cases h2; exact h rfl)
  | .error a, .error b =>
    if h : a = b then isTrue (by rw [h]) else isFalse (by intro h2; cases h2; exact h rfl)
  | .ok _, .error _ => isFalse (by intro h; cases h)
  | .error _, .ok _ => isFalse (by intro h; cases h)

/-- The body of the `for i, v := range floats` loop of `floatsToPgVector`, from index `i`. -/
def writeComponents (len : Nat) : Nat → List ℚ → List Char → List Char
  | _, [], str => str
  | i, v :: rest, str =>
    let str1 := str ++ sprintfF v
    let str2 := if (i : Int) < (len : Int) - 1 then str1 ++ [','] else str1
    writeComponents len (i + 1) rest str2

/-- Function `floatsToPgVector`: a bracketed, comma separated literal of `%f` components. -/
def floatsToPgVector (floats : List ℚ) : List Char :=
  writeComponents floats.length 0 floats ['['] ++ [']']

/-- The conversion loop of `parseVector`: stop at the first token that is not a number. -/
def parseValues : List (List Char) → Except Err (List ℚ)
  | [] => .ok []
  | v :: rest =>
    match parseFloat v with
    | none => .error (Err.parseValue v)
    | some val =>
      match parseValues rest with
      | .error e => .error e
      | .ok vector => .ok (val :: vector)

/-- Function `parseVector`: trim the brackets, split on commas, parse every token. -/
def parseVector (raw : List Char) : Except Err (List ℚ) :=
  let data := stringsTrim raw ['[', ']']
  let values := stringsSplit data ','
  parseValues values

/-- The accumulation loop of `cosineSimilarity` from index `i`, over the remaining
elements of `vec1`; `none` is the run-time panic of `vec2[i]` with `i` out of range. -/
def accumulate {F : Type} [Add F] [Mul F] (vec2 : List F) :
    List F → Nat → F → F → F → Option (F × F × F)
  | [], _, dotProduct, normA, normB => some (dotProduct, normA, normB)
  | x :: rest, i, dotProduct, normA, normB =>
    match vec2[i]? with
    | none => none
    | some y => accumulate vec2 rest (i + 1) (dotProduct + x * y) (normA + x * x) (normB + y * y)

/-- Function `cosineSimilarity`, over any arithmetic `F` and square root `sqrt` (`math.Sqrt`);
`none` is a run-time panic (index out of range). -/
def cosineSimilarity {F : Type} [Zero F] [Add F] [Mul F] [Div F] [DecidableEq F]
    (sqrt : F → F) (vec1 vec2 : List F) : Option F :=
  match accumulate vec2 vec1 0 0 0 0 with
  | none => none
  | some (dotProduct, normA, normB) =>
    if normA = 0 ∨ normB = 0 then some 0
    else some (dotProduct / (sqrt normA * sqrt normB))

/-- Answer of the embedding service to one POST. -/
structure HttpResponse where
  /-- Status code of the response. -/
  statusCode : Nat
  /-- Body of the response. -/
  body : List Char
  deriving DecidableEq, Repr

/-- The embedding service as seen by the program: the outcome of `http.Post` for a prompt
(an error message or a response) and the JSON decoding of a body into an embedding. -/
structure Ollama where
  /-- Outcome of `http.Post` for a prompt. -/
  post : List Char → Except (List Char) HttpResponse
  /-- Outcome of decoding a body into `EmbeddingResponse.Embedding`. -/
  decode : List Char → Except (List Char) (List ℚ)

/-- Function `generateEmbedding`: one POST, an error unless the status is 200 and the body
decodes. -/
def generateEmbedding (api : Ollama) (prompt : List Char) : Except Err (List ℚ) :=
  match api.post prompt with
  | .error err => .error (Err.apiCall err)
  | .ok resp =>
    if resp.statusCode ≠ 200 then .error (Err.apiStatus resp.body)
    else
      match api.decode resp.body with
      | .error err => .error (Err.apiDecode err)
      | .ok embedding => .ok embedding

/-- The `documents` table: the `(text, embedding literal)` pairs inserted so far. -/
structure Store where
  /-- Rows of the table, oldest first. -/
  documents : List (List Char × List Char)
  deriving DecidableEq, Repr

/-- Model of `db.Exec` for the INSERT statement: the driver either reports an error (`reject` gives
its message) and the table is unchanged, or one row is appended. -/
def Store.execInsert (reject : List Char → List Char → Option (List Char)) (db : Store)
    (text literal : List Char) : Store × Option Err :=
  match reject text literal with
  | some msg => (db, some (Err.store msg))
  | none => ({ documents := db.documents ++ [(text, literal)] }, none)

/-- Function `insertText`: embed the text, then insert it with its vector literal. The result is the
store afterwards and the returned error (`none` is `nil`). -/
def insertText (api : Ollama) (reject : List Char → List Char → Option (List Char))
    (db : Store) (text : List Char) : Store × Option Err :=
  match generateEmbedding api text with
  | .error err => (db, some err)
  | .ok embedding => db.execInsert reject text (floatsToPgVector embedding)

/-- One row delivered by the store for the similarity query. -/
structure Row where
  /-- Column `id`. -/
  id : Int
  /-- Column `text`. -/
  text : List Char
  /-- Column `similarity`, computed by the store. -/
  similarity : ℚ
  /-- Column `embedding`, as raw bytes. -/
  embeddingRaw : List Char
  deriving DecidableEq, Repr

/-- One line printed by `querySimilarTexts` (the arguments of its `Printf`). -/
structure Rendered (F : Type) where
  /-- Running number of the row, from 1. -/
  index : Nat
  /-- Identifier of the document. -/
  id : Int
  /-- Similarity reported by the store. -/
  similarity : ℚ
  /-- Similarity recomputed by `cosineSimilarity`. -/
  goSimilarity : F
  /-- Text of the document. -/
  text : List Char
  deriving DecidableEq, Repr

/-- How a call of `querySimilarTexts` ends. -/
inductive Ending where
  /-- The function returned `nil`. -/
  | done
  /-- The function returned an error. -/
  | failed (err : Err)
  /-- A run-time panic (index out of range in `cosineSimilarity`). -/
  | panicked
  deriving DecidableEq, Repr

/-- The `for rows.Next()` loop of `querySimilarTexts`: `i` rows were seen before, each
remaining row is the outcome of its `rows.Scan`. Returns the lines printed and the ending.
`F` is the arithmetic of `cosineSimilarity` and `toF` takes a decoded number into it. -/
def renderRows {F : Type} [Zero F] [Add F] [Mul F] [Div F] [DecidableEq F]
    (sqrt : F → F) (toF : ℚ → F) (queryEmbedding : List ℚ) :
    Nat → List (Except (List Char) Row) → List (Rendered F) × Ending
  | _, [] => ([], Ending.done)
  | i, scanned :: rest =>
    match scanned with
    | .error msg => ([], Ending.failed (Err.store msg))
    | .ok row =>
      match parseVector row.embeddingRaw with
      | .error err => ([], Ending.failed (Err.convertEmbedding err))
      | .ok embedding =>
        match cosineSimilarity sqrt (queryEmbedding.map toF) (embedding.map toF) with
        | none => ([], Ending.panicked)
        | some calculateInGoSimilarity =>
          let line : Rendered F :=
            { index := i + 1, id := row.id, similarity := row.similarity,
              goSimilarity := calculateInGoSimilarity, text := row.text }
          let later := renderRows sqrt toF queryEmbedding (i + 1) rest
          (line :: later.1, later.2)

/-- Function `querySimilarTexts`: embed the query, run the SQL query (`runQuery` is the outcome of
`db.Query` for a vector literal), then render the rows. -/
def querySimilarTexts {F : Type} [Zero F] [Add F] [Mul F] [Div F] [DecidableEq F]
    (api : Ollama) (sqrt : F → F) (toF : ℚ → F)
    (runQuery : List Char → Except (List Char) (List (Except (List Char) Row)))
    (query : List Char) : List (Rendered F) × Ending :=
  match generateEmbedding api query with
  | .error err => ([], Ending.failed err)
  | .ok queryEmbedding =>
    match runQuery (floatsToPgVector queryEmbedding) with
    | .error msg => ([], Ending.failed (Err.store msg))
    | .ok rows => renderRows sqrt toF queryEmbedding 0 rows

/-! ## Sample inputs -/

/-- A service that answers every prompt with status 200 and the embedding `[1, 0]`. -/
def sampleApi : Ollama :=
  { post := fun _ => .ok { statusCode := 200, body := "ok".data },
    decode := fun _ => .ok [1, 0] }

/-- A service that answers every prompt with status 500. -/
def failingApi : Ollama :=
  { post := fun _ => .ok { statusCode := 500, body := "internal error".data },
    decode := fun _ => .ok [1, 0] }

/-- A candidate row whose stored literal is malformed. -/
def sampleBadRow : Row :=
  { id := 13, text := "tres".data, similarity := 3 / 5, embeddingRaw := "[4,x]".data }

/-- The two candidate rows before the malformed one. -/
def sampleRowsBefore : List Row :=
  [ { id := 11, text := "uno".data, similarity := 1, embeddingRaw := "[1,0]".data },
    { id := 12, text := "dos".data, similarity := 3 / 5, embeddingRaw := "[3,4]".data } ]

/-- The two candidate rows after the malformed one. -/
def sampleRowsAfter : List Row :=
  [ { id := 14, text := "cuatro".data, similarity := 3 / 5, embeddingRaw := "[3,4]".data },
    { id := 15, text := "cinco".data, similarity := 1 / 2, embeddingRaw := "[0.5,0.5]".data } ]

/-- Five candidate rows; the literal of the third one is malformed. -/
def sampleRows : List Row := sampleRowsBefore ++ sampleBadRow :: sampleRowsAfter

/-- The outcome of `db.Query` that delivers `sampleRows`, each scanned without error. -/
def sampleQuery (_literal : List Char) : Except (List Char) (List (Except (List Char) Row)) :=
  .ok (sampleRowsBefore.map Except.ok ++ .ok sampleBadRow :: sampleRowsAfter.map Except.ok)

/-! ## Binary64 arithmetic -/

/-- Integer square root by bisection on the `k` low bits still undecided. -/
def isqrtBits : Nat → Nat → Nat → Nat
  | 0, _, r => r
  | k + 1, n, r =>
    if (r + 2 ^ k) * (r + 2 ^ k) ≤ n then isqrtBits k n (r + 2 ^ k) else isqrtBits k n r

/-- Number of binary digits of `n` (`0` for `0`); `fuel` bounds the number of digits. -/
def bitLength : Nat → Nat → Nat
  | 0, _ => 0
  | fuel + 1, n => if n = 0 then 0 else bitLength fuel (n / 2) + 1

/-- Position of the leading binary digit: `2 ^ log2 n ≤ n < 2 ^ (log2 n + 1)` for `0 < n`. -/
def log2 (n : Nat) : Nat := bitLength n n - 1

/-- Integer square root: the largest `r` with `r * r ≤ n`. -/
def isqrt (n : Nat) : Nat := isqrtBits (log2 n / 2 + 1) n 0

/-- The power `2 ^ e` for an integer exponent. -/
def pow2 (e : Int) : ℚ :=
  if 0 ≤ e then ((2 ^ e.toNat : Nat) : ℚ) else 1 / ((2 ^ (-e).toNat : Nat) : ℚ)

/-- Binary exponent of a positive rational: the `e` with `2 ^ e ≤ q < 2 ^ (e + 1)`. -/
def ilog2 (q : ℚ) : Int :=
  let e0 : Int := (log2 q.num.natAbs : Int) - (log2 q.den : Int)
  if q < pow2 e0 then e0 - 1 else e0

/-- A `float64` in the binary64 model: a finite number, or `outside` once an operation
left the range where the model is exact (overflow, underflow below the normal range,
division by zero, square root of a negative number). Signed zeros are identified. -/
inductive F64 where
  /-- A finite value. -/
  | fin (q : ℚ)
  /-- A value the model does not follow. -/
  | outside
  deriving DecidableEq, Repr

namespace F64

/-- Round a positive magnitude to 53 significant bits, ties to even. -/
def roundMagnitude (q : ℚ) : ℚ :=
  let ulp := pow2 (ilog2 q - 52)
  (roundHalfEven (q / ulp) : ℚ) * ulp

/-- Round an exact result to the nearest binary64 value, ties to even. -/
def round (q : ℚ) : F64 :=
  if q = 0 then fin 0
  else
    let r := roundMagnitude |q|
    if r < pow2 (-1022) ∨ pow2 1024 ≤ r then outside
    else if q < 0 then fin (-r) else fin r

/-- Correctly rounded addition. -/
def add : F64 → F64 → F64
  | fin a, fin b => round (a + b)
  | _, _ => outside

/-- Correctly rounded multiplication. -/
def mul : F64 → F64 → F64
  | fin a, fin b => round (a * b)
  | _, _ => outside

/-- Correctly rounded division. -/
def div : F64 → F64 → F64
  | fin a, fin b => if b = 0 then outside else round (a / b)
  | _, _ => outside

/-- Nearest integer to the square root of a non-negative rational, ties to even. -/
def roundSqrt (t : ℚ) : Nat :=
  let s := isqrt ⌊t⌋.toNat
  let half : ℚ := ((s : ℚ) + 1 / 2) * ((s : ℚ) + 1 / 2)
  if t < half then s
  else if half < t then s + 1
  else if s % 2 = 0 then s else s + 1

/-- Correctly rounded square root (`math.Sqrt`). -/
def sqrt : F64 → F64
  | fin a =>
    if a < 0 then outside
    else if a = 0 then fin 0
    else
      let ulp := pow2 (ilog2 a / 2 - 52)
      let r := (roundSqrt (a / (ulp * ulp)) : ℚ) * ulp
      if r < pow2 (-1022) ∨ pow2 1024 ≤ r then outside else fin r
  | outside => outside

instance instZero : Zero F64 := ⟨fin 0⟩
instance instAdd : Add F64 := ⟨add⟩
instance instMul : Mul F64 := ⟨mul⟩
instance instDiv : Div F64 := ⟨div⟩

end F64

/-! ## The formula of the specification -/

/-- The dot product `dot(a, b)`: the sum of the products of corresponding components. -/
def dot {F : Type} [Zero F] [Add F] [Mul F] : List F → List F → F
  | x :: xs, y :: ys => x * y + dot xs ys
  | _, _ => 0

/-- The Euclidean norm of a vector, for a square root function `sqrt`. -/
def euclideanNorm {F : Type} [Zero F] [Add F] [Mul F] (sqrt : F → F) (a : List F) : F :=
  sqrt (dot a a)

/-! ## Digits -/

theorem digitChar_facts : ∀ d, d < 10 →
    (digitChar d).isDigit = true ∧ digitVal (digitChar d) = d ∧ digitChar d ≠ ',' ∧
      digitChar d ≠ '[' ∧ digitChar d ≠ ']' ∧ digitChar d ≠ '+' ∧ digitChar d ≠ '-' ∧
      digitChar d ≠ '.' := by
  decide

theorem digitsValue_append (xs ys : List Char) :
    digitsValue (xs ++ ys) = digitsValue xs * 10 ^ ys.length + digitsValue ys := by
  induction ys using List.reverseRecOn with
  | nil => simp [digitsValue]
  | append_singleton ys c ih =>
    have h1 : digitsValue (xs ++ (ys ++ [c])) = 10 * digitsValue (xs ++ ys) + digitVal c := by
      simp [digitsValue, List.foldl_append, ← List.append_assoc]
    have h2 : digitsValue (ys ++ [c]) = 10 * digitsValue ys + digitVal c := by
      simp [digitsValue, List.foldl_append]
    rw [h1, h2, ih]
    simp [pow_succ]
    ring

theorem digitsRev_spec : ∀ fuel n, n < fuel →
    digitsValue (digitsRev fuel n).reverse = n ∧ digitsRev fuel n ≠ [] ∧
      ∀ c ∈ digitsRev fuel n, ∃ d, d < 10 ∧ c = digitChar d := by
  intro fuel
  induction fuel with
  | zero => intro n h; omega
  | succ fuel ih =>
    intro n h
    unfold digitsRev
    by_cases h10 : n < 10
    · simp only [h10, if_true]
      refine ⟨?_, by simp, ?_⟩
      · simp [digitsValue, (digitChar_facts n h10).2.1]
      · intro c hc
        simp at hc
        exact ⟨n, h10, hc⟩
    · simp only [h10, if_false]
      have hlt : n / 10 < fuel := by omega
      obtain ⟨hv, _, hd⟩ := ih (n / 10) hlt
      have hmod : n % 10 < 10 := Nat.mod_lt _ (by decide)
      refine ⟨?_, by simp, ?_⟩
      · rw [List.reverse_cons, digitsValue_append, hv]
        simp [digitsValue, (digitChar_facts _ hmod).2.1]
        omega
      · intro c hc
        simp at hc
        rcases hc with hc | hc
        · exact ⟨n % 10, hmod, hc⟩
        · exact hd c hc

theorem natDigits_value (n : Nat) : digitsValue (natDigits n) = n :=
  (digitsRev_spec (n + 1) n (Nat.lt_succ_self n)).1

theorem natDigits_ne_nil (n : Nat) : natDigits n ≠ [] := by
  have h := (digitsRev_spec (n + 1) n (Nat.lt_succ_self n)).2.1
  simpa [natDigits] using h

theorem natDigits_digit (n : Nat) : ∀ c ∈ natDigits n, ∃ d, d < 10 ∧ c = digitChar d := by
  intro c hc
  have h := (digitsRev_spec (n + 1) n (Nat.lt_succ_self n)).2.2
  exact h c (by simpa [natDigits] using hc)

theorem fixedDigits_spec : ∀ k n,
    digitsValue (fixedDigits k n) = n % 10 ^ k ∧ (fixedDigits k n).length = k ∧
      ∀ c ∈ fixedDigits k n, ∃ d, d < 10 ∧ c = digitChar d := by
  intro k
  induction k with
  | zero => intro n; simp [fixedDigits, digitsValue, Nat.mod_one]
  | succ k ih =>
    intro n
    obtain ⟨hv, hl, hd⟩ := ih (n / 10)
    have hmod : n % 10 < 10 := Nat.mod_lt _ (by decide)
    unfold fixedDigits
    refine ⟨?_, by simp [hl], ?_⟩
    · rw [digitsValue_append, hv]
      simp only [List.length_singleton, pow_one]
      have h2 : digitsValue [digitChar (n % 10)] = n % 10 := by
        simp [digitsValue, (digitChar_facts _ hmod).2.1]
      rw [h2, pow_succ, Nat.mul_comm (10 ^ k) 10, Nat.mod_mul]
      ring
    · intro c hc
      simp at hc
      rcases hc with hc | hc
      · exact hd c hc
      · exact ⟨n % 10, hmod, hc⟩

/-! ## Formatting and parsing one component -/

theorem roundHalfEven_error (q : ℚ) (hq : 0 ≤ q) : |(roundHalfEven q : ℚ) - q| ≤ 1 / 2 := by
  have hf0 : 0 ≤ ⌊q⌋ := Int.floor_nonneg.mpr hq
  have hcast : ((⌊q⌋.toNat : ℕ) : ℚ) = (⌊q⌋ : ℚ) := by
    have : ((⌊q⌋.toNat : ℕ) : ℤ) = ⌊q⌋ := Int.toNat_of_nonneg hf0
    exact_mod_cast this
  have h1 : (⌊q⌋ : ℚ) ≤ q := Int.floor_le q
  have h2 : q < (⌊q⌋ : ℚ) + 1 := Int.lt_floor_add_one q
  unfold roundHalfEven
  simp only
  rw [hcast]
  split_ifs with ha hb hc
  · rw [hcast, abs_le]; constructor <;> linarith
  · push_cast; rw [hcast, abs_le]; constructor <;> linarith
  · rw [hcast, abs_le]; constructor <;> linarith
  · push_cast; rw [hcast, abs_le]; constructor <;> linarith

theorem printedValue_error (v : ℚ) : |printedValue v - v| ≤ 1 / 2000000 := by
  have h := roundHalfEven_error (|v| * 1000000) (by positivity)
  rw [abs_le] at h ⊢
  unfold printedValue microUnits
  by_cases hv : v < 0
  · rw [abs_of_neg hv] at h
    simp only [hv, if_true]
    rw [abs_of_neg hv]
    constructor <;> linarith [h.1, h.2]
  · rw [abs_of_nonneg (not_lt.mp hv)] at h
    simp only [hv, if_false]
    rw [abs_of_nonneg (not_lt.mp hv)]
    constructor <;> linarith [h.1, h.2]

theorem takeWhile_digits_append (ds rest : List Char) (h : ∀ c ∈ ds, c.isDigit = true)
    (hr : rest.takeWhile Char.isDigit = []) :
    (ds ++ rest).takeWhile Char.isDigit = ds ∧ (ds ++ rest).dropWhile Char.isDigit = rest := by
  induction ds with
  | nil =>
    refine ⟨by simpa using hr, ?_⟩
    cases rest with
    | nil => rfl
    | cons c t =>
      by_cases hc : c.isDigit = true
      · simp [List.takeWhile, hc] at hr
      · simp [List.dropWhile, hc]
  | cons d ds ih =>
    have hd : d.isDigit = true := h d (by simp)
    obtain ⟨h1, h2⟩ := ih (fun c hc => h c (by simp [hc]))
    simp [List.takeWhile, List.dropWhile, hd, h1, h2]

theorem parseUnsigned_point (ip fp : List Char) (hip : ∀ c ∈ ip, c.isDigit = true)
    (hfp : ∀ c ∈ fp, c.isDigit = true) (hne : ip ≠ []) :
    parseUnsigned (ip ++ '.' :: fp) = some ((digitsValue (ip ++ fp) : ℚ) / 10 ^ fp.length) := by
  have hdot : ('.' :: fp).takeWhile Char.isDigit = [] := by
    simp [List.takeWhile]
  obtain ⟨h1, h2⟩ := takeWhile_digits_append ip ('.' :: fp) hip hdot
  obtain ⟨h3, h4⟩ := takeWhile_digits_append fp [] hfp rfl
  simp only [List.append_nil] at h3 h4
  unfold parseUnsigned
  simp only [h1, h2, h3, h4, hne, false_and, if_false, parseExponent]
  simp

theorem parseFloat_sprintfF (v : ℚ) : parseFloat (sprintfF v) = some (printedValue v) := by
  set a := microUnits v / 1000000 with ha
  set b := microUnits v % 1000000 with hb
  obtain ⟨hbv, hbl, hbd⟩ := fixedDigits_spec 6 b
  have hip : ∀ c ∈ natDigits a, c.isDigit = true := by
    intro c hc
    obtain ⟨d, hd, rfl⟩ := natDigits_digit a c hc
    exact (digitChar_facts d hd).1
  have hfp : ∀ c ∈ fixedDigits 6 b, c.isDigit = true := by
    intro c hc
    obtain ⟨d, hd, rfl⟩ := hbd c hc
    exact (digitChar_facts d hd).1
  have hpu := parseUnsigned_point (natDigits a) (fixedDigits 6 b) hip hfp (natDigits_ne_nil a)
  have hval : (digitsValue (natDigits a ++ fixedDigits 6 b) : ℚ) / 10 ^ (fixedDigits 6 b).length
      = (microUnits v : ℚ) / 1000000 := by
    rw [digitsValue_append, natDigits_value, hbv, hbl]
    have hb6 : b % 10 ^ 6 = b := Nat.mod_eq_of_lt (by rw [hb]; exact Nat.mod_lt _ (by norm_num))
    have hsum : a * 10 ^ 6 + b % 10 ^ 6 = microUnits v := by
      rw [hb6, ha, hb]; norm_num; exact Nat.div_add_mod' _ _
    rw [hsum]; norm_num
  rw [hval] at hpu
  by_cases hv : v < 0
  · have hs : sprintfF v = '-' :: (natDigits a ++ '.' :: fixedDigits 6 b) := by
      simp [sprintfF, hv, ha, hb]
    rw [hs]
    simp [parseFloat, hpu, printedValue, hv]
  · have hs : sprintfF v = natDigits a ++ '.' :: fixedDigits 6 b := by
      simp [sprintfF, hv, ha, hb]
    rw [hs]
    obtain ⟨c, cs, hcs⟩ := List.exists_cons_of_ne_nil (natDigits_ne_nil a)
    obtain ⟨d, hd, hcd⟩ := natDigits_digit a c (by rw [hcs]; simp)
    have hplus : c ≠ '+' := by rw [hcd]; exact (digitChar_facts d hd).2.2.2.2.2.1
    have hminus : c ≠ '-' := by rw [hcd]; exact (digitChar_facts d hd).2.2.2.2.2.2.1
    have hpf : parseFloat (natDigits a ++ '.' :: fixedDigits 6 b)
        = parseUnsigned (natDigits a ++ '.' :: fixedDigits 6 b) := by
      rw [hcs]
      unfold parseFloat
      split
      · rename_i heq; simp at heq; exact absurd heq.1 hplus
      · rename_i heq; simp at heq; exact absurd heq.1 hminus
      · rfl
    rw [hpf, hpu]
    simp [printedValue, hv]

/-! ## Formatting and parsing a whole vector -/

theorem sprintfF_chars (v : ℚ) :
    ∀ c ∈ sprintfF v, c ≠ ',' ∧ c ≠ '[' ∧ c ≠ ']' := by
  intro c hc
  have hdig : ∀ d, d < 10 → digitChar d ≠ ',' ∧ digitChar d ≠ '[' ∧ digitChar d ≠ ']' :=
    fun d hd => ⟨(digitChar_facts d hd).2.2.1, (digitChar_facts d hd).2.2.2.1,
      (digitChar_facts d hd).2.2.2.2.1⟩
  simp only [sprintfF, List.mem_append] at hc
  rcases hc with ((hc | hc) | hc) | hc
  · by_cases hv : v < 0
    · simp [hv] at hc; subst hc; decide
    · simp [hv] at hc
  · obtain ⟨d, hd, rfl⟩ := natDigits_digit _ c hc
    exact hdig d hd
  · simp at hc; subst hc; decide
  · obtain ⟨d, hd, rfl⟩ := (fixedDigits_spec 6 _).2.2 c hc
    exact hdig d hd

theorem sprintfF_ne_nil (v : ℚ) : sprintfF v ≠ [] := by
  simp [sprintfF]

theorem writeComponents_eq (len : Nat) (rest : List ℚ) :
    ∀ (i : Nat) (str : List Char), i + rest.length = len →
      writeComponents len i rest str = str ++ [','].intercalate (rest.map sprintfF) := by
  induction rest with
  | nil => intro i str _; simp [writeComponents, List.intercalate]
  | cons v rest ih =>
    intro i str hlen
    simp only [List.length_cons] at hlen
    unfold writeComponents
    simp only
    rw [ih (i + 1) _ (by omega)]
    cases rest with
    | nil =>
      have hi : ¬ ((i : Int) < (len : Int) - 1) := by simp at hlen; omega
      simp [hi, List.intercalate]
    | cons w rest =>
      have hi : (i : Int) < (len : Int) - 1 := by simp at hlen; omega
      simp [hi, List.intercalate, List.intersperse]

theorem floatsToPgVector_eq (floats : List ℚ) :
    floatsToPgVector floats = '[' :: ([','].intercalate (floats.map sprintfF) ++ [']']) := by
  unfold floatsToPgVector
  rw [writeComponents_eq floats.length floats 0 ['['] (by simp)]
  simp

theorem intercalate_chars (tokens : List (List Char)) (P : Char → Prop) (hsep : P ',')
    (h : ∀ t ∈ tokens, ∀ c ∈ t, P c) : ∀ c ∈ [','].intercalate tokens, P c := by
  induction tokens with
  | nil => simp [List.intercalate]
  | cons t ts ih =>
    cases ts with
    | nil =>
      intro c hc
      simp [List.intercalate] at hc
      exact h t (by simp) c hc
    | cons u us =>
      intro c hc
      have hrec := ih (fun t2 ht2 => h t2 (by simp [ht2]))
      simp only [List.intercalate, List.intersperse, List.flatten_cons, List.mem_append] at hc hrec
      rcases hc with hc | hc | hc
      · exact h t (by simp) c hc
      · simp at hc; subst hc; exact hsep
      · exact hrec c hc

theorem stringsTrim_brackets (body : List Char) (h : ∀ c ∈ body, c ≠ '[' ∧ c ≠ ']') :
    stringsTrim ('[' :: (body ++ [']'])) ['[', ']'] = body := by
  have hp : ∀ c ∈ body, ¬ (decide (c ∈ ['[', ']']) = true) := by
    intro c hc
    simp [(h c hc).1, (h c hc).2]
  unfold stringsTrim
  have h1 : ('[' :: (body ++ [']'])).dropWhile (fun c => decide (c ∈ ['[', ']']))
      = (body ++ [']']).dropWhile (fun c => decide (c ∈ ['[', ']'])) := by
    simp [List.dropWhile]
  rw [h1]
  cases body with
  | nil => simp [List.dropWhile, List.rdropWhile]
  | cons b bs =>
    have hb := hp b (by simp)
    have h2 : ((b :: bs) ++ [']']).dropWhile (fun c => decide (c ∈ ['[', ']']))
        = (b :: bs) ++ [']'] := by
      simp only [List.cons_append, List.dropWhile]
      simp only [hb]
      rfl
    rw [h2, List.rdropWhile_concat_pos _ _ _ (by simp)]
    rw [List.rdropWhile_eq_self_iff]
    intro hne
    exact hp _ (List.getLast_mem hne)

theorem parseValues_map (floats : List ℚ) :
    parseValues (floats.map sprintfF) = .ok (floats.map printedValue) := by
  induction floats with
  | nil => rfl
  | cons v rest ih => simp [parseValues, parseFloat_sprintfF, ih]

theorem parseVector_floatsToPgVector (floats : List ℚ) (hne : floats ≠ []) :
    parseVector (floatsToPgVector floats) = .ok (floats.map printedValue) := by
  have hbody : ∀ c ∈ [','].intercalate (floats.map sprintfF), c ≠ '[' ∧ c ≠ ']' := by
    apply intercalate_chars _ (fun c => c ≠ '[' ∧ c ≠ ']') (by decide)
    intro t ht c hc
    obtain ⟨v, _, rfl⟩ := List.mem_map.mp ht
    exact (sprintfF_chars v c hc).2
  have hsplit : ([','].intercalate (floats.map sprintfF)).splitOn ',' = floats.map sprintfF := by
    apply List.splitOn_intercalate
    · intro t ht hc
      obtain ⟨v, _, rfl⟩ := List.mem_map.mp ht
      exact (sprintfF_chars v ',' hc).1 rfl
    · simpa using hne
  unfold parseVector
  simp only [floatsToPgVector_eq, stringsTrim_brackets _ hbody, stringsSplit, hsplit,
    parseValues_map]

theorem parseValues_error_iff (tokens : List (List Char)) :
    (∃ e, parseValues tokens = .error e) ↔ ∃ t ∈ tokens, parseFloat t = none := by
  induction tokens with
  | nil => simp [parseValues]
  | cons t ts ih =>
    unfold parseValues
    cases ht : parseFloat t with
    | none => simp [ht]
    | some val =>
      cases hts : parseValues ts with
      | error e =>
        have h2 : ∃ t ∈ ts, parseFloat t = none := ih.mp ⟨e, hts⟩
        obtain ⟨u, hu, hun⟩ := h2
        simp only [List.mem_cons]
        exact ⟨fun _ => ⟨u, Or.inr hu, hun⟩, fun _ => ⟨e, rfl⟩⟩
      | ok vector =>
        have h2 : ¬ ∃ t ∈ ts, parseFloat t = none := by
          intro h3
          obtain ⟨e, he⟩ := ih.mpr h3
          rw [hts] at he
          cases he
        constructor
        · rintro ⟨e, he⟩; cases he
        · rintro ⟨u, hu, hun⟩
          simp only [List.mem_cons] at hu
          rcases hu with rfl | hu
          · rw [ht] at hun; cases hun
          · exact absurd ⟨u, hu, hun⟩ h2

theorem stringsTrim_bracketed (raw : List Char) :
    stringsTrim ('[' :: (raw ++ [']'])) ['[', ']'] = stringsTrim raw ['[', ']'] := by
  unfold stringsTrim
  have h1 : ('[' :: (raw ++ [']'])).dropWhile (fun c => decide (c ∈ ['[', ']']))
      = (raw ++ [']']).dropWhile (fun c => decide (c ∈ ['[', ']'])) := by
    simp [List.dropWhile]
  rw [h1]
  induction raw with
  | nil => simp [List.dropWhile, List.rdropWhile]
  | cons c cs ih =>
    by_cases hc : decide (c ∈ ['[', ']']) = true
    · simp only [List.cons_append, List.dropWhile, hc]
      exact ih (by simp [List.dropWhile])
    · have e1 : ((c :: cs) ++ [']']).dropWhile (fun c => decide (c ∈ ['[', ']']))
          = (c :: cs) ++ [']'] := by
        simp only [List.cons_append, List.dropWhile, hc]
        rfl
      have e2 : (c :: cs).dropWhile (fun c => decide (c ∈ ['[', ']'])) = c :: cs := by
        simp only [List.dropWhile, hc]
      rw [e1, e2, List.rdropWhile_concat_pos _ _ _ (by simp)]

/-! ## The accumulation loop -/

theorem accumulate_short {F : Type} [Add F] [Mul F] (vec2 : List F) (xs : List F) :
    ∀ (i : Nat) (d a b : F), vec2.length < i + xs.length → i ≤ vec2.length →
      accumulate vec2 xs i d a b = none := by
  induction xs with
  | nil => intro i d a b h hi; simp at h; omega
  | cons x xs ih =>
    intro i d a b h hi
    simp only [List.length_cons] at h
    unfold accumulate
    cases hy : vec2[i]? with
    | none => rfl
    | some y =>
      have hlt : i < vec2.length := by
        by_contra hge
        rw [List.getElem?_eq_none (by omega)] at hy
        cases hy
      simp only
      exact ih (i + 1) _ _ _ (by omega) (by omega)

theorem accumulate_take {F : Type} [Add F] [Mul F] (vec2 : List F) (n : Nat) (xs : List F) :
    ∀ (i : Nat) (d a b : F), i + xs.length ≤ n →
      accumulate (vec2.take n) xs i d a b = accumulate vec2 xs i d a b := by
  induction xs with
  | nil => intro i d a b _; simp [accumulate]
  | cons x xs ih =>
    intro i d a b h
    simp only [List.length_cons] at h
    unfold accumulate
    have hi : i < n := by omega
    rw [List.getElem?_take_of_lt hi]
    cases hy : vec2[i]? with
    | none => rfl
    | some y =>
      simp only
      exact ih (i + 1) _ _ _ (by omega)

theorem accumulate_isSome {F : Type} [Add F] [Mul F] (vec2 : List F) (xs : List F) :
    ∀ (i : Nat) (d a b : F), i + xs.length ≤ vec2.length →
      (accumulate vec2 xs i d a b).isSome = true := by
  induction xs with
  | nil => intro i d a b _; simp [accumulate]
  | cons x xs ih =>
    intro i d a b h
    simp only [List.length_cons] at h
    unfold accumulate
    have hi : i < vec2.length := by omega
    rw [List.getElem?_eq_getElem hi]
    simp only
    exact ih (i + 1) _ _ _ (by omega)

theorem accumulate_eq_dot {F : Type} [Field F] (vec2 : List F) (xs : List F) :
    ∀ (ys tail : List F) (i : Nat) (d a b : F), vec2.drop i = ys ++ tail →
      ys.length = xs.length →
      accumulate vec2 xs i d a b = some (d + dot xs ys, a + dot xs xs, b + dot ys ys) := by
  induction xs with
  | nil =>
    intro ys tail i d a b _ hlen
    have : ys = [] := List.length_eq_zero.mp hlen
    subst this
    simp [accumulate, dot]
  | cons x xs ih =>
    intro ys tail i d a b hdrop hlen
    cases ys with
    | nil => simp at hlen
    | cons y ys =>
      have hy : vec2[i]? = some y := by
        have h0 : (vec2.drop i)[0]? = some y := by rw [hdrop]; simp
        simpa using h0
      have hdrop2 : vec2.drop (i + 1) = ys ++ tail := by
        have h1 : (vec2.drop i).drop 1 = ys ++ tail := by rw [hdrop]; rfl
        rw [List.drop_drop] at h1
        rw [← h1, Nat.add_comm]
      unfold accumulate
      rw [hy]
      simp only
      rw [ih ys tail (i + 1) _ _ _ hdrop2 (by simpa using hlen)]
      simp only [dot, add_assoc]

theorem cosineSimilarity_eq {F : Type} [Field F] [DecidableEq F] (sqrt : F → F)
    (a b : List F) (hlen : a.length = b.length) :
    cosineSimilarity sqrt a b =
      if dot a a = 0 ∨ dot b b = 0 then some 0
      else some (dot a b / (sqrt (dot a a) * sqrt (dot b b))) := by
  unfold cosineSimilarity
  rw [accumulate_eq_dot b a b [] 0 0 0 0 (by simp) hlen.symm]
  simp only [zero_add]

theorem dot_self_nonneg {F : Type} [LinearOrderedField F] (a : List F) : 0 ≤ dot a a := by
  induction a with
  | nil => simp [dot]
  | cons x xs ih =>
    simp only [dot]
    have := mul_self_nonneg x
    linarith

theorem dot_self_eq_zero {F : Type} [LinearOrderedField F] (a : List F) :
    dot a a = 0 ↔ ∀ x ∈ a, x = 0 := by
  induction a with
  | nil => simp [dot]
  | cons x xs ih =>
    simp only [dot, List.mem_cons, forall_eq_or_imp]
    have h1 := mul_self_nonneg x
    have h2 := dot_self_nonneg xs
    constructor
    · intro h
      have hx : x * x = 0 := by linarith
      have hxs : dot xs xs = 0 := by linarith
      exact ⟨mul_self_eq_zero.mp hx, ih.mp hxs⟩
    · rintro ⟨hx, hxs⟩
      rw [hx, ih.mpr hxs]
      simp

theorem dot_cauchy_schwarz {F : Type} [LinearOrderedField F] (a : List F) :
    ∀ b : List F, dot a b * dot a b ≤ dot a a * dot b b := by
  induction a with
  | nil => intro b; simp [dot]
  | cons x xs ih =>
    intro b
    cases b with
    | nil => simp [dot]
    | cons y ys =>
      simp only [dot]
      have h1 := ih ys
      have h2 := dot_self_nonneg xs
      have h3 := dot_self_nonneg ys
      have hS : 0 ≤ x * x * dot ys ys + dot xs xs * (y * y) :=
        add_nonneg (mul_nonneg (mul_self_nonneg x) h3) (mul_nonneg h2 (mul_self_nonneg y))
      have hsq : (2 * (x * y) * dot xs ys) ^ 2
          ≤ (x * x * dot ys ys + dot xs xs * (y * y)) ^ 2 := by
        have e1 : (2 * (x * y) * dot xs ys) ^ 2
            = 4 * ((x * y) * (x * y)) * (dot xs ys * dot xs ys) := by ring
        have e2 : 4 * ((x * y) * (x * y)) * (dot xs ys * dot xs ys)
            ≤ 4 * ((x * y) * (x * y)) * (dot xs xs * dot ys ys) :=
          mul_le_mul_of_nonneg_left h1
            (mul_nonneg (by norm_num) (mul_self_nonneg (x * y)))
        nlinarith [sq_nonneg (x * x * dot ys ys - dot xs xs * (y * y))]
      have hT := (abs_le_of_sq_le_sq' hsq hS).2
      nlinarith

theorem accumulate_zero_left {F : Type} [Zero F] [Add F] [Mul F] (vec2 : List F)
    (h00 : (0 : F) + 0 * 0 = 0) (xs : List F) (hz : ∀ x ∈ xs, x = 0) :
    ∀ (i : Nat) (d b : F), i + xs.length ≤ vec2.length →
      ∃ d2 b2, accumulate vec2 xs i d 0 b = some (d2, 0, b2) := by
  induction xs with
  | nil => intro i d b _; exact ⟨d, b, rfl⟩
  | cons x xs ih =>
    intro i d b h
    simp only [List.length_cons] at h
    have hx : x = 0 := hz x (by simp)
    have hi : i < vec2.length := by omega
    unfold accumulate
    rw [List.getElem?_eq_getElem hi]
    simp only
    rw [hx, h00]
    exact ih (fun y hy => hz y (by simp [hy])) (i + 1) _ _ (by omega)

theorem accumulate_zero_right {F : Type} [Zero F] [Add F] [Mul F] (vec2 : List F)
    (h00 : (0 : F) + 0 * 0 = 0) (hz : ∀ y ∈ vec2, y = 0) (xs : List F) :
    ∀ (i : Nat) (d a : F), i + xs.length ≤ vec2.length →
      ∃ d2 a2, accumulate vec2 xs i d a 0 = some (d2, a2, 0) := by
  induction xs with
  | nil => intro i d a _; exact ⟨d, a, rfl⟩
  | cons x xs ih =>
    intro i d a h
    simp only [List.length_cons] at h
    have hi : i < vec2.length := by omega
    have hy : vec2[i] = 0 := hz _ (List.getElem_mem hi)
    unfold accumulate
    rw [List.getElem?_eq_getElem hi]
    simp only
    rw [hy, h00]
    exact ih (i + 1) _ _ (by omega)

theorem sqrt_pos_of_ne_zero {F : Type} [LinearOrderedField F] (sqrt : F → F)
    (hsqrt : ∀ x, 0 ≤ x → 0 ≤ sqrt x ∧ sqrt x * sqrt x = x) (a : List F)
    (ha : euclideanNorm sqrt a ≠ 0) : 0 < sqrt (dot a a) ∧ dot a a ≠ 0 := by
  have h := hsqrt (dot a a) (dot_self_nonneg a)
  refine ⟨lt_of_le_of_ne h.1 (Ne.symm ha), ?_⟩
  intro h0
  apply ha
  have h2 := (hsqrt (dot a a) (dot_self_nonneg a)).2
  rw [h0] at h2
  unfold euclideanNorm
  rw [h0]
  exact mul_self_eq_zero.mp h2

theorem renderRows_abort {F : Type} [Zero F] [Add F] [Mul F] [Div F] [DecidableEq F]
    (sqrt : F → F) (toF : ℚ → F) (queryEmbedding : List ℚ) (bad : Row) (e : Err)
    (post : List (Except (List Char) Row)) (hbad : parseVector bad.embeddingRaw = .error e)
    (pre : List (Except (List Char) Row)) :
    ∀ i : Nat, (renderRows sqrt toF queryEmbedding i pre).2 = Ending.done →
      renderRows sqrt toF queryEmbedding i (pre ++ .ok bad :: post)
          = ((renderRows sqrt toF queryEmbedding i pre).1,
              Ending.failed (Err.convertEmbedding e)) ∧
        (renderRows sqrt toF queryEmbedding i pre).1.length = pre.length := by
  induction pre with
  | nil =>
    intro i _
    simp [renderRows, hbad]
  | cons scanned rest ih =>
    intro i hdone
    cases scanned with
    | error msg => simp [renderRows] at hdone
    | ok row =>
      cases hp : parseVector row.embeddingRaw with
      | error err => simp [renderRows, hp] at hdone
      | ok embedding =>
        cases hc : cosineSimilarity sqrt (queryEmbedding.map toF) (embedding.map toF) with
        | none => simp [renderRows, hp, hc] at hdone
        | some val =>
          simp only [renderRows, hp, hc] at hdone
          obtain ⟨h1, h2⟩ := ih (i + 1) hdone
          have hstep : ∀ rows : List (Except (List Char) Row),
              renderRows sqrt toF queryEmbedding i (.ok row :: rows)
                = ({ index := i + 1, id := row.id, similarity := row.similarity,
                     goSimilarity := val, text := row.text }
                    :: (renderRows sqrt toF queryEmbedding (i + 1) rows).1,
                   (renderRows sqrt toF queryEmbedding (i + 1) rows).2) := by
            intro rows
            simp only [renderRows, hp, hc]
          rw [List.cons_append, hstep, hstep, h1]
          simp [h2]

/-! ## The helpers of the binary64 model -/

theorem bitLength_spec : ∀ fuel n, n ≤ fuel →
    n < 2 ^ bitLength fuel n ∧ (0 < n → 2 ^ (bitLength fuel n - 1) ≤ n) := by
  intro fuel
  induction fuel with
  | zero =>
    intro n h
    have : n = 0 := by omega
    subst this
    simp [bitLength]
  | succ fuel ih =>
    intro n h
    unfold bitLength
    by_cases h0 : n = 0
    · subst h0; simp
    · simp only [h0, if_false, Nat.add_sub_cancel]
      obtain ⟨h1, h2⟩ := ih (n / 2) (by omega)
      constructor
      · rw [pow_succ]; omega
      · intro _
        by_cases h3 : n / 2 = 0
        · have hb : bitLength fuel (n / 2) = 0 := by
            rw [h3]; cases fuel <;> simp [bitLength]
          rw [hb]; simp; omega
        · have h4 := h2 (by omega)
          have h5 : 0 < bitLength fuel (n / 2) := by
            by_contra hc
            have hz : bitLength fuel (n / 2) = 0 := by omega
            rw [hz] at h1
            simp at h1
            exact h3 h1
          have e : bitLength fuel (n / 2) = (bitLength fuel (n / 2) - 1) + 1 := by omega
          rw [e, pow_succ]
          omega

theorem log2_spec (n : Nat) (hn : 0 < n) : 2 ^ log2 n ≤ n ∧ n < 2 ^ (log2 n + 1) := by
  obtain ⟨h1, h2⟩ := bitLength_spec n n (le_refl n)
  have hpos : 0 < bitLength n n := by
    by_contra hc
    have hz : bitLength n n = 0 := by omega
    rw [hz] at h1
    simp at h1
    omega
  unfold log2
  refine ⟨h2 hn, ?_⟩
  have e : bitLength n n - 1 + 1 = bitLength n n := by omega
  rw [e]
  exact h1

theorem isqrtBits_spec : ∀ k n r, r * r ≤ n → n < (r + 2 ^ k) * (r + 2 ^ k) →
    isqrtBits k n r * isqrtBits k n r ≤ n ∧
      n < (isqrtBits k n r + 1) * (isqrtBits k n r + 1) := by
  intro k
  induction k with
  | zero => intro n r h1 h2; simpa [isqrtBits] using ⟨h1, h2⟩
  | succ k ih =>
    intro n r h1 h2
    unfold isqrtBits
    by_cases hc : (r + 2 ^ k) * (r + 2 ^ k) ≤ n
    · simp only [hc, if_true]
      apply ih n (r + 2 ^ k) hc
      have e : r + 2 ^ k + 2 ^ k = r + 2 ^ (k + 1) := by rw [pow_succ]; omega
      rw [e]
      exact h2
    · simp only [hc, if_false]
      exact ih n r h1 (by omega)

theorem isqrt_spec (n : Nat) : isqrt n * isqrt n ≤ n ∧ n < (isqrt n + 1) * (isqrt n + 1) := by
  unfold isqrt
  apply isqrtBits_spec _ n 0 (by simp)
  simp only [zero_add]
  rcases Nat.eq_zero_or_pos n with h0 | hpos
  · subst h0; positivity
  · have h1 := (log2_spec n hpos).2
    have h2 : 2 ^ (log2 n + 1) ≤ 2 ^ (log2 n / 2 + 1) * 2 ^ (log2 n / 2 + 1) := by
      rw [← pow_add]
      exact Nat.pow_le_pow_right (by norm_num) (by omega)
    omega

theorem pow2_eq (e : Int) : pow2 e = (2 : ℚ) ^ e := by
  unfold pow2
  by_cases h : 0 ≤ e
  · simp only [h, if_true]
    obtain ⟨k, rfl⟩ := Int.eq_ofNat_of_zero_le h
    simp
  · simp only [h, if_false]
    have hneg : 0 ≤ -e := by omega
    obtain ⟨k, hk⟩ := Int.eq_ofNat_of_zero_le hneg
    have he : e = -(k : Int) := by omega
    rw [hk, he]
    simp

theorem ilog2_spec (q : ℚ) (hq : 0 < q) : pow2 (ilog2 q) ≤ q ∧ q < pow2 (ilog2 q + 1) := by
  have hnum : 0 < q.num := Rat.num_pos.mpr hq
  have hnat : 0 < q.num.natAbs := Int.natAbs_pos.mpr (ne_of_gt hnum)
  obtain ⟨a1, a2⟩ := log2_spec q.num.natAbs hnat
  obtain ⟨b1, b2⟩ := log2_spec q.den q.den_pos
  have hqeq : q = (q.num.natAbs : ℚ) / (q.den : ℚ) := by
    have h1 : ((q.num.natAbs : ℕ) : ℤ) = q.num := Int.natAbs_of_nonneg (le_of_lt hnum)
    have h2 : (q.num : ℚ) / (q.den : ℚ) = q := Rat.num_div_den q
    have h3 : ((q.num.natAbs : ℕ) : ℚ) = (q.num : ℚ) := by
      rw [← Int.cast_natCast, h1]
    rw [h3, h2]
  have hden : (0 : ℚ) < (q.den : ℚ) := by exact_mod_cast q.den_pos
  have A1 : (2 : ℚ) ^ (log2 q.num.natAbs) ≤ (q.num.natAbs : ℚ) := by exact_mod_cast a1
  have A2 : (q.num.natAbs : ℚ) < (2 : ℚ) ^ (log2 q.num.natAbs + 1) := by exact_mod_cast a2
  have B1 : (2 : ℚ) ^ (log2 q.den) ≤ (q.den : ℚ) := by exact_mod_cast b1
  have B2 : (q.den : ℚ) < (2 : ℚ) ^ (log2 q.den + 1) := by exact_mod_cast b2
  have two_pos : (0 : ℚ) < 2 := by norm_num
  have two_ne : (2 : ℚ) ≠ 0 := by norm_num
  set a := log2 q.num.natAbs with ha
  set b := log2 q.den with hb
  have hup : q < (2 : ℚ) ^ ((a : Int) - (b : Int) + 1) := by
    have e : (2 : ℚ) ^ ((a : Int) - (b : Int) + 1) = (2 : ℚ) ^ (a + 1) / (2 : ℚ) ^ b := by
      rw [zpow_add₀ two_ne, zpow_sub₀ two_ne]
      simp only [zpow_natCast, zpow_one, pow_succ]
      ring
    rw [e, hqeq, div_lt_div_iff₀ hden (by positivity)]
    calc (q.num.natAbs : ℚ) * 2 ^ b < 2 ^ (a + 1) * 2 ^ b := by
          apply mul_lt_mul_of_pos_right A2 (by positivity)
      _ ≤ 2 ^ (a + 1) * (q.den : ℚ) := by
          apply mul_le_mul_of_nonneg_left B1 (by positivity)
  have hlow : (2 : ℚ) ^ ((a : Int) - (b : Int) - 1) ≤ q := by
    have e : (2 : ℚ) ^ ((a : Int) - (b : Int) - 1) = (2 : ℚ) ^ a / (2 : ℚ) ^ (b + 1) := by
      rw [zpow_sub₀ two_ne, zpow_sub₀ two_ne]
      simp only [zpow_natCast, zpow_one, pow_succ]
      field_simp
    rw [e, hqeq, div_le_div_iff₀ (by positivity) hden]
    calc (2 : ℚ) ^ a * (q.den : ℚ) ≤ (q.num.natAbs : ℚ) * (q.den : ℚ) := by
          apply mul_le_mul_of_nonneg_right A1 (le_of_lt hden)
      _ ≤ (q.num.natAbs : ℚ) * 2 ^ (b + 1) := by
          apply mul_le_mul_of_nonneg_left (le_of_lt B2) (by positivity)
  unfold ilog2
  simp only [← ha, ← hb]
  by_cases hc : q < pow2 ((a : Int) - (b : Int))
  · simp only [hc, if_true]
    rw [pow2_eq, pow2_eq]
    refine ⟨hlow, ?_⟩
    have e : (a : Int) - (b : Int) - 1 + 1 = (a : Int) - (b : Int) := by ring
    rw [e, ← pow2_eq]
    exact hc
  · simp only [hc, if_false]
    refine ⟨not_lt.mp hc, ?_⟩
    rw [pow2_eq]
    exact hup

theorem pow2_pos (e : Int) : 0 < pow2 e := by
  rw [pow2_eq]
  positivity

theorem roundMagnitude_error (q : ℚ) (hq : 0 < q) :
    |F64.roundMagnitude q - q| ≤ pow2 (ilog2 q - 52) / 2 := by
  unfold F64.roundMagnitude
  simp only
  have hu := pow2_pos (ilog2 q - 52)
  have h := roundHalfEven_error (q / pow2 (ilog2 q - 52)) (le_of_lt (div_pos hq hu))
  rw [abs_le] at h ⊢
  obtain ⟨h1, h2⟩ := h
  have e : q = q / pow2 (ilog2 q - 52) * pow2 (ilog2 q - 52) := by
    field_simp
  constructor
  · have := mul_le_mul_of_nonneg_right h1 (le_of_lt hu)
    nlinarith
  · have := mul_le_mul_of_nonneg_right h2 (le_of_lt hu)
    nlinarith

theorem roundSqrt_spec (t : ℚ) (ht : 0 ≤ t) :
    t ≤ ((F64.roundSqrt t : ℚ) + 1 / 2) ^ 2 ∧
      (0 < F64.roundSqrt t → ((F64.roundSqrt t : ℚ) - 1 / 2) ^ 2 ≤ t) := by
  have hf0 : 0 ≤ ⌊t⌋ := Int.floor_nonneg.mpr ht
  have hcast : ((⌊t⌋.toNat : ℕ) : ℚ) = (⌊t⌋ : ℚ) := by
    have : ((⌊t⌋.toNat : ℕ) : ℤ) = ⌊t⌋ := Int.toNat_of_nonneg hf0
    exact_mod_cast this
  have h1 : (⌊t⌋ : ℚ) ≤ t := Int.floor_le t
  have h2 : t < (⌊t⌋ : ℚ) + 1 := Int.lt_floor_add_one t
  obtain ⟨s1, s2⟩ := isqrt_spec ⌊t⌋.toNat
  have S1 : ((isqrt ⌊t⌋.toNat : ℕ) : ℚ) * (isqrt ⌊t⌋.toNat : ℚ) ≤ t := by
    have : ((isqrt ⌊t⌋.toNat * isqrt ⌊t⌋.toNat : ℕ) : ℚ) ≤ (⌊t⌋.toNat : ℚ) := by
      exact_mod_cast s1
    push_cast at this
    linarith
  have S2 : t < ((isqrt ⌊t⌋.toNat : ℚ) + 1) * ((isqrt ⌊t⌋.toNat : ℚ) + 1) := by
    have s3 : ⌊t⌋.toNat + 1 ≤ (isqrt ⌊t⌋.toNat + 1) * (isqrt ⌊t⌋.toNat + 1) := s2
    have : ((⌊t⌋.toNat + 1 : ℕ) : ℚ)
        ≤ (((isqrt ⌊t⌋.toNat + 1) * (isqrt ⌊t⌋.toNat + 1) : ℕ) : ℚ) := by
      exact_mod_cast s3
    push_cast at this
    linarith
  have hs0 : (0 : ℚ) ≤ (isqrt ⌊t⌋.toNat : ℚ) := Nat.cast_nonneg _
  unfold F64.roundSqrt
  simp only
  have low : 0 < isqrt ⌊t⌋.toNat → ((isqrt ⌊t⌋.toNat : ℚ) - 1 / 2) ^ 2 ≤ t := by
    intro hpos
    have hs1 : (1 : ℚ) ≤ (isqrt ⌊t⌋.toNat : ℚ) := by exact_mod_cast hpos
    nlinarith
  split_ifs with ha hb hc
  · exact ⟨by nlinarith, low⟩
  · push_cast
    exact ⟨by nlinarith, fun _ => by nlinarith⟩
  · exact ⟨by nlinarith, low⟩
  · push_cast
    exact ⟨by nlinarith, fun _ => by nlinarith⟩

end NomicEmbed

open NomicEmbed

/-! ## Claims -/

/-- C1 (as stated, refuted): the one-component vector `[0.0000001]` is encoded as
`[0.000000]` and decoded as `[0]`, which is not within relative tolerance 1e-5 of it. -/
theorem roundtrip_relative_counterexample :
    ([1 / 10000000] : List ℚ) ≠ [] ∧
    floatsToPgVector [1 / 10000000] = "[0.000000]".data ∧
    parseVector (floatsToPgVector [1 / 10000000]) = .ok [0] ∧
    ¬ (|(0 : ℚ) - 1 / 10000000| ≤ 1 / 100000 * |(1 / 10000000 : ℚ)|) := by
  refine ⟨by decide, by decide!, by decide!, ?_⟩
  norm_num [abs_of_pos]

/-- C1 (amended): decoding the encoding of a non-empty vector succeeds, keeps the length,
and every component of magnitude at least 0.05 is reproduced within relative tolerance
1e-5. -/
theorem roundtrip_relative_error (v : List ℚ) (hne : v ≠ []) :
    ∃ r, parseVector (floatsToPgVector v) = .ok r ∧ r.length = v.length ∧
      ∀ (i : Nat) (hv : i < v.length) (hr : i < r.length),
        5 / 100 ≤ |v[i]| → |r[i] - v[i]| ≤ 1 / 100000 * |v[i]| := by
  refine ⟨v.map printedValue, parseVector_floatsToPgVector v hne, by simp, ?_⟩
  intro i hv hr hbig
  simp only [List.getElem_map]
  have h := printedValue_error v[i]
  linarith

theorem roundtrip_relative_error_witness :
    ([1 / 3, -2, 1 / 128] : List ℚ) ≠ [] ∧
    ∃ r, parseVector (floatsToPgVector [1 / 3, -2, 1 / 128]) = .ok r ∧
      r.length = ([1 / 3, -2, 1 / 128] : List ℚ).length ∧
      ∀ (i : Nat) (hv : i < ([1 / 3, -2, 1 / 128] : List ℚ).length) (hr : i < r.length),
        5 / 100 ≤ |([1 / 3, -2, 1 / 128] : List ℚ)[i]| →
          |r[i] - ([1 / 3, -2, 1 / 128] : List ℚ)[i]|
            ≤ 1 / 100000 * |([1 / 3, -2, 1 / 128] : List ℚ)[i]| :=
  ⟨by decide, roundtrip_relative_error [1 / 3, -2, 1 / 128] (by decide)⟩

/-- C4 (the code at the failing input): the empty vector is encoded as `[]`, and decoding
`[]` returns the error of parsing the empty token instead of the empty sequence. -/
theorem empty_vector_decode_fails :
    floatsToPgVector [] = "[]".data ∧
    stringsSplit (stringsTrim "[]".data ['[', ']']) ',' = [[]] ∧
    parseVector (floatsToPgVector []) = .error (Err.parseValue []) := by
  decide

/-- C5 (as stated, refuted): `1,2,3` and `[1,2,3` lack a bracket delimiter, and both are
decoded without error, as the vector 1, 2, 3. -/
theorem missing_brackets_counterexample :
    "1,2,3".data.head? ≠ some '[' ∧ "[1,2,3".data.getLast? ≠ some ']' ∧
    parseVector "1,2,3".data = .ok [1, 2, 3] ∧
    parseVector "[1,2,3".data = .ok [1, 2, 3] := by
  refine ⟨by decide, by decide, by decide!, by decide!⟩

/-- C5 (amended): `parseVector` does not check the bracket delimiters. It gives the same
result for an input and for that input enclosed in brackets, and it returns an error
exactly when some comma-separated token of the bracket-trimmed input is not a number. -/
theorem parseVector_brackets_optional (raw : List Char) :
    parseVector ('[' :: (raw ++ [']'])) = parseVector raw ∧
    ((∃ e, parseVector raw = .error e) ↔
      ∃ t ∈ stringsSplit (stringsTrim raw ['[', ']']) ',', parseFloat t = none) := by
  refine ⟨?_, ?_⟩
  · unfold parseVector
    rw [stringsTrim_bracketed]
  · unfold parseVector
    exact parseValues_error_iff _

/-- C6: in any arithmetic where `0 + 0 * 0 = 0` (exact arithmetic and binary64 alike), for
equal-length vectors of which at least one is all-zero, `cosineSimilarity` returns exactly
`0`: the guard on the zero norm is taken and no division is performed. -/
theorem cosine_zero_vector {F : Type} [Zero F] [Add F] [Mul F] [Div F] [DecidableEq F]
    (sqrt : F → F) (a b : List F) (h00 : (0 : F) + 0 * 0 = 0) (hlen : a.length = b.length)
    (hz : (∀ x ∈ a, x = 0) ∨ (∀ y ∈ b, y = 0)) :
    cosineSimilarity sqrt a b = some 0 := by
  unfold cosineSimilarity
  rcases hz with hz | hz
  · obtain ⟨d2, b2, h⟩ := accumulate_zero_left b h00 a hz 0 0 0 (by omega)
    rw [h]
    simp
  · obtain ⟨d2, a2, h⟩ := accumulate_zero_right b h00 hz a 0 0 0 (by omega)
    rw [h]
    simp

theorem cosine_zero_vector_witness :
    (0 : F64) + 0 * 0 = 0 ∧
    ([F64.fin 0, F64.fin 0] : List F64).length = ([F64.fin 1, F64.fin 2] : List F64).length ∧
    ((∀ x ∈ ([F64.fin 0, F64.fin 0] : List F64), x = 0) ∨
      (∀ y ∈ ([F64.fin 1, F64.fin 2] : List F64), y = 0)) ∧
    cosineSimilarity F64.sqrt [F64.fin 0, F64.fin 0] [F64.fin 1, F64.fin 2] = some 0 :=
  ⟨by decide!, by decide, Or.inl (by decide),
    cosine_zero_vector F64.sqrt [F64.fin 0, F64.fin 0] [F64.fin 1, F64.fin 2] (by decide!)
      (by decide) (Or.inl (by decide))⟩

/-- C7 (as stated, refuted): in binary64 the vector `[1, 1, 1]` has a non-zero Euclidean
norm, and `cosineSimilarity` of it with itself is `1 + 2^-52 = 1.0000000000000002`, outside
`[-1, 1]`, because the rounded `sqrt(3) * sqrt(3)` is `3 - 2^-51`, below `3`. -/
theorem cosine_range_binary64_counterexample :
    ([F64.fin 1, F64.fin 1, F64.fin 1] : List F64).length
      = ([F64.fin 1, F64.fin 1, F64.fin 1] : List F64).length ∧
    euclideanNorm F64.sqrt [F64.fin 1, F64.fin 1, F64.fin 1] ≠ 0 ∧
    F64.sqrt (F64.fin 3) * F64.sqrt (F64.fin 3)
      = F64.fin (6755399441055743 / 2251799813685248) ∧
    cosineSimilarity F64.sqrt [F64.fin 1, F64.fin 1, F64.fin 1]
        [F64.fin 1, F64.fin 1, F64.fin 1]
      = some (F64.fin (4503599627370497 / 4503599627370496)) ∧
    ¬ ((4503599627370497 / 4503599627370496 : ℚ) ≤ 1) := by
  refine ⟨rfl, by decide!, by decide!, by decide!, by norm_num⟩

/-- C7 (amended): in exact arithmetic (an ordered field, `math.Sqrt` an exact square
root), for equal-length vectors with non-zero Euclidean norms, `cosineSimilarity` returns
`dot(a,b) / (norm(a) * norm(b))`, and that value lies in `[-1, 1]`. -/
theorem cosine_formula_and_range {F : Type} [LinearOrderedField F] (sqrt : F → F)
    (hsqrt : ∀ x, 0 ≤ x → 0 ≤ sqrt x ∧ sqrt x * sqrt x = x) (a b : List F)
    (hlen : a.length = b.length) (ha : euclideanNorm sqrt a ≠ 0)
    (hb : euclideanNorm sqrt b ≠ 0) :
    cosineSimilarity sqrt a b
        = some (dot a b / (euclideanNorm sqrt a * euclideanNorm sqrt b)) ∧
      -1 ≤ dot a b / (euclideanNorm sqrt a * euclideanNorm sqrt b) ∧
      dot a b / (euclideanNorm sqrt a * euclideanNorm sqrt b) ≤ 1 := by
  obtain ⟨hpa, hna⟩ := sqrt_pos_of_ne_zero sqrt hsqrt a ha
  obtain ⟨hpb, hnb⟩ := sqrt_pos_of_ne_zero sqrt hsqrt b hb
  have hsa := (hsqrt (dot a a) (dot_self_nonneg a)).2
  have hsb := (hsqrt (dot b b) (dot_self_nonneg b)).2
  have hpos : 0 < sqrt (dot a a) * sqrt (dot b b) := mul_pos hpa hpb
  have hcs := dot_cauchy_schwarz a b
  have hsq : (dot a b) ^ 2 ≤ (sqrt (dot a a) * sqrt (dot b b)) ^ 2 := by
    have e : (sqrt (dot a a) * sqrt (dot b b)) ^ 2
        = (sqrt (dot a a) * sqrt (dot a a)) * (sqrt (dot b b) * sqrt (dot b b)) := by ring
    rw [e, hsa, hsb, pow_two]
    exact hcs
  have habs := abs_le_of_sq_le_sq' hsq (le_of_lt hpos)
  refine ⟨?_, ?_, ?_⟩
  · rw [cosineSimilarity_eq sqrt a b hlen]
    simp [hna, hnb, euclideanNorm]
  · unfold euclideanNorm
    rw [le_div_iff₀ hpos]
    linarith [habs.1]
  · unfold euclideanNorm
    rw [div_le_iff₀ hpos]
    linarith [habs.2]

theorem cosine_formula_and_range_witness :
    (∀ x : ℝ, 0 ≤ x → 0 ≤ Real.sqrt x ∧ Real.sqrt x * Real.sqrt x = x) ∧
    ([3, 4] : List ℝ).length = ([4, 3] : List ℝ).length ∧
    euclideanNorm Real.sqrt ([3, 4] : List ℝ) ≠ 0 ∧
    euclideanNorm Real.sqrt ([4, 3] : List ℝ) ≠ 0 ∧
    (cosineSimilarity Real.sqrt ([3, 4] : List ℝ) [4, 3]
        = some (dot ([3, 4] : List ℝ) [4, 3]
            / (euclideanNorm Real.sqrt [3, 4] * euclideanNorm Real.sqrt [4, 3])) ∧
      -1 ≤ dot ([3, 4] : List ℝ) [4, 3]
            / (euclideanNorm Real.sqrt [3, 4] * euclideanNorm Real.sqrt [4, 3]) ∧
      dot ([3, 4] : List ℝ) [4, 3]
            / (euclideanNorm Real.sqrt [3, 4] * euclideanNorm Real.sqrt [4, 3]) ≤ 1) :=
  ⟨fun x hx => ⟨Real.sqrt_nonneg x, Real.mul_self_sqrt hx⟩, rfl,
    by simp [euclideanNorm, dot, Real.sqrt_eq_zero']; norm_num,
    by simp [euclideanNorm, dot, Real.sqrt_eq_zero']; norm_num,
    cosine_formula_and_range Real.sqrt
      (fun x hx => ⟨Real.sqrt_nonneg x, Real.mul_self_sqrt hx⟩) [3, 4] [4, 3] rfl
      (by simp [euclideanNorm, dot, Real.sqrt_eq_zero']; norm_num)
      (by simp [euclideanNorm, dot, Real.sqrt_eq_zero']; norm_num)⟩

/-- C8 (as stated, refuted): in binary64 the non-zero vector `[1, 1]` has
`cosineSimilarity(v, v) = 1 - 2^-52 = 0.9999999999999998`, because the rounded
`sqrt(2) * sqrt(2)` is `2 + 2^-51`, not `2`. -/
theorem cosine_self_binary64_counterexample :
    (∃ x ∈ ([F64.fin 1, F64.fin 1] : List F64), x ≠ 0) ∧
    F64.sqrt (F64.fin 2) * F64.sqrt (F64.fin 2)
      = F64.fin (4503599627370497 / 2251799813685248) ∧
    cosineSimilarity F64.sqrt [F64.fin 1, F64.fin 1] [F64.fin 1, F64.fin 1]
      = some (F64.fin (4503599627370495 / 4503599627370496)) ∧
    cosineSimilarity F64.sqrt [F64.fin 1, F64.fin 1] [F64.fin 1, F64.fin 1]
      ≠ some (F64.fin 1) := by
  refine ⟨⟨F64.fin 1, by simp, by decide!⟩, by decide!, by decide!, by decide!⟩

/-- C8 (amended): in exact arithmetic (an ordered field, `math.Sqrt` an exact square
root), `cosineSimilarity(v, v)` is `1` for every vector with a non-zero component. -/
theorem cosine_self_exact {F : Type} [LinearOrderedField F] (sqrt : F → F)
    (hsqrt : ∀ x, 0 ≤ x → 0 ≤ sqrt x ∧ sqrt x * sqrt x = x) (v : List F)
    (hv : ∃ x ∈ v, x ≠ 0) :
    cosineSimilarity sqrt v v = some 1 := by
  have hne : dot v v ≠ 0 := by
    intro h0
    obtain ⟨x, hx, hx0⟩ := hv
    exact hx0 ((dot_self_eq_zero v).mp h0 x hx)
  have hs := (hsqrt (dot v v) (dot_self_nonneg v)).2
  rw [cosineSimilarity_eq sqrt v v rfl]
  simp only [hne, or_self, if_false, hs]
  rw [div_self hne]

theorem cosine_self_exact_witness :
    (∀ x : ℝ, 0 ≤ x → 0 ≤ Real.sqrt x ∧ Real.sqrt x * Real.sqrt x = x) ∧
    (∃ x ∈ ([1, 1] : List ℝ), x ≠ 0) ∧
    cosineSimilarity Real.sqrt ([1, 1] : List ℝ) [1, 1] = some 1 :=
  ⟨fun x hx => ⟨Real.sqrt_nonneg x, Real.mul_self_sqrt hx⟩, ⟨1, by simp, one_ne_zero⟩,
    cosine_self_exact Real.sqrt (fun x hx => ⟨Real.sqrt_nonneg x, Real.mul_self_sqrt hx⟩)
      [1, 1] ⟨1, by simp, one_ne_zero⟩⟩

/-- C2 (as stated, refuted): for vectors of length 3 and 4 `cosineSimilarity` returns a
number, the similarity of the first vector with the first three components of the second
(here `1`); with the arguments exchanged it stops with a run-time panic. -/
theorem cosine_length_mismatch_counterexample :
    ([F64.fin 3, F64.fin 4, F64.fin 0] : List F64).length
      ≠ ([F64.fin 3, F64.fin 4, F64.fin 0, F64.fin 7] : List F64).length ∧
    cosineSimilarity F64.sqrt [F64.fin 3, F64.fin 4, F64.fin 0]
        [F64.fin 3, F64.fin 4, F64.fin 0, F64.fin 7] = some (F64.fin 1) ∧
    cosineSimilarity F64.sqrt [F64.fin 3, F64.fin 4, F64.fin 0]
        [F64.fin 3, F64.fin 4, F64.fin 0] = some (F64.fin 1) ∧
    cosineSimilarity F64.sqrt [F64.fin 3, F64.fin 4, F64.fin 0, F64.fin 7]
        [F64.fin 3, F64.fin 4, F64.fin 0] = none := by
  refine ⟨by decide, by decide!, by decide!, by decide!⟩

/-- C2 (amended): `cosineSimilarity` makes no length check and has no error result. For
vectors of different lengths it either stops with a run-time panic (index out of range),
when the first is longer, or returns the value it computes from the first vector and the
equally long leading part of the second, when the first is shorter. -/
theorem cosine_length_mismatch {F : Type} [Zero F] [Add F] [Mul F] [Div F] [DecidableEq F]
    (sqrt : F → F) (a b : List F) (hlen : a.length ≠ b.length) :
    (b.length < a.length ∧ cosineSimilarity sqrt a b = none) ∨
    (a.length < b.length ∧ (cosineSimilarity sqrt a b).isSome = true ∧
      cosineSimilarity sqrt a b = cosineSimilarity sqrt a (b.take a.length)) := by
  rcases Nat.lt_or_gt_of_ne hlen with h | h
  · right
    refine ⟨h, ?_, ?_⟩
    · have hs := accumulate_isSome b a 0 0 0 0 (by omega)
      unfold cosineSimilarity
      cases hacc : accumulate b a 0 0 0 0 with
      | none => rw [hacc] at hs; cases hs
      | some t =>
        obtain ⟨d, na, nb⟩ := t
        simp only
        split_ifs <;> rfl
    · unfold cosineSimilarity
      rw [accumulate_take b a.length a 0 0 0 0 (by omega)]
  · left
    refine ⟨h, ?_⟩
    unfold cosineSimilarity
    rw [accumulate_short b a 0 0 0 0 (by omega) (by omega)]

theorem cosine_length_mismatch_witness :
    ([F64.fin 1, F64.fin 2, F64.fin 3] : List F64).length
      ≠ ([F64.fin 1, F64.fin 2, F64.fin 3, F64.fin 4] : List F64).length ∧
    ((([F64.fin 1, F64.fin 2, F64.fin 3, F64.fin 4] : List F64).length
          < ([F64.fin 1, F64.fin 2, F64.fin 3] : List F64).length ∧
        cosineSimilarity F64.sqrt [F64.fin 1, F64.fin 2, F64.fin 3]
          [F64.fin 1, F64.fin 2, F64.fin 3, F64.fin 4] = none) ∨
      (([F64.fin 1, F64.fin 2, F64.fin 3] : List F64).length
          < ([F64.fin 1, F64.fin 2, F64.fin 3, F64.fin 4] : List F64).length ∧
        (cosineSimilarity F64.sqrt [F64.fin 1, F64.fin 2, F64.fin 3]
          [F64.fin 1, F64.fin 2, F64.fin 3, F64.fin 4]).isSome = true ∧
        cosineSimilarity F64.sqrt [F64.fin 1, F64.fin 2, F64.fin 3]
            [F64.fin 1, F64.fin 2, F64.fin 3, F64.fin 4]
          = cosineSimilarity F64.sqrt [F64.fin 1, F64.fin 2, F64.fin 3]
              (([F64.fin 1, F64.fin 2, F64.fin 3, F64.fin 4] : List F64).take
                ([F64.fin 1, F64.fin 2, F64.fin 3] : List F64).length))) :=
  ⟨by decide, cosine_length_mismatch F64.sqrt [F64.fin 1, F64.fin 2, F64.fin 3]
    [F64.fin 1, F64.fin 2, F64.fin 3, F64.fin 4] (by decide)⟩

/-- C3 (as stated, refuted): of five candidate rows the third has a malformed literal; the
query renders the two rows before it and returns the conversion error, so the two rows
after it are never rendered. -/
theorem query_malformed_row_counterexample :
    sampleRows.map (fun row => (parseVector row.embeddingRaw).toBool)
      = [true, true, false, true, true] ∧
    querySimilarTexts sampleApi F64.sqrt F64.round sampleQuery "texto".data
      = ([ { index := 1, id := 11, similarity := 1, goSimilarity := F64.fin 1,
             text := "uno".data },
           { index := 2, id := 12, similarity := 3 / 5, goSimilarity := F64.round (3 / 5),
             text := "dos".data } ],
         Ending.failed (Err.convertEmbedding (Err.parseValue "x".data))) := by
  refine ⟨by decide!, by decide!⟩

/-- C3 (amended): a candidate row whose stored literal fails to decode aborts the query.
When the rows before it are rendered without incident, `querySimilarTexts` prints exactly
those rows, one line each, and returns the conversion error wrapping the decode error; the
rows after the malformed one are not looked at. -/
theorem query_aborts_on_malformed_row {F : Type} [Zero F] [Add F] [Mul F] [Div F]
    [DecidableEq F] (api : Ollama) (sqrt : F → F) (toF : ℚ → F)
    (runQuery : List Char → Except (List Char) (List (Except (List Char) Row)))
    (query : List Char) (queryEmbedding : List ℚ) (pre post : List (Except (List Char) Row))
    (bad : Row) (e : Err)
    (hemb : generateEmbedding api query = .ok queryEmbedding)
    (hrows : runQuery (floatsToPgVector queryEmbedding) = .ok (pre ++ .ok bad :: post))
    (hpre : (renderRows sqrt toF queryEmbedding 0 pre).2 = Ending.done)
    (hbad : parseVector bad.embeddingRaw = .error e) :
    querySimilarTexts api sqrt toF runQuery query
        = ((renderRows sqrt toF queryEmbedding 0 pre).1,
            Ending.failed (Err.convertEmbedding e)) ∧
      (renderRows sqrt toF queryEmbedding 0 pre).1.length = pre.length := by
  unfold querySimilarTexts
  rw [hemb]
  simp only [hrows]
  exact renderRows_abort sqrt toF queryEmbedding bad e post hbad pre 0 hpre

theorem query_aborts_on_malformed_row_witness :
    generateEmbedding sampleApi "texto".data = .ok [1, 0] ∧
    sampleQuery (floatsToPgVector [1, 0])
      = .ok (sampleRowsBefore.map Except.ok ++ .ok sampleBadRow ::
          sampleRowsAfter.map Except.ok) ∧
    (renderRows F64.sqrt F64.round [1, 0] 0 (sampleRowsBefore.map Except.ok)).2
      = Ending.done ∧
    parseVector sampleBadRow.embeddingRaw = .error (Err.parseValue "x".data) ∧
    (querySimilarTexts sampleApi F64.sqrt F64.round sampleQuery "texto".data
      = ((renderRows F64.sqrt F64.round [1, 0] 0 (sampleRowsBefore.map Except.ok)).1,
          Ending.failed (Err.convertEmbedding (Err.parseValue "x".data))) ∧
      (renderRows F64.sqrt F64.round [1, 0] 0 (sampleRowsBefore.map Except.ok)).1.length
        = (sampleRowsBefore.map
            (Except.ok : Row → Except (List Char) Row)).length) :=
  ⟨by decide, rfl, by decide!, by decide,
    query_aborts_on_malformed_row sampleApi F64.sqrt F64.round sampleQuery "texto".data
      [1, 0] (sampleRowsBefore.map Except.ok) (sampleRowsAfter.map Except.ok) sampleBadRow
      (Err.parseValue "x".data) (by decide) rfl (by decide!) (by decide)⟩

/-- C9: when `generateEmbedding` returns an error for the text, `insertText` returns that
error and performs no INSERT: the documents of the store are unchanged, whatever the
driver would have answered. An HTTP 500 answer is such an error. -/
theorem insert_aborted_when_embedding_fails (api : Ollama)
    (reject : List Char → List Char → Option (List Char)) (db : Store) (text : List Char)
    (e : Err) (h : generateEmbedding api text = .error e) :
    insertText api reject db text = (db, some e) ∧
      (insertText api reject db text).1.documents = db.documents ∧
      (∀ body, api.post text = .ok { statusCode := 500, body := body } →
        e = Err.apiStatus body) := by
  have h1 : insertText api reject db text = (db, some e) := by
    unfold insertText
    rw [h]
  refine ⟨h1, by rw [h1], ?_⟩
  intro body hpost
  unfold generateEmbedding at h
  rw [hpost] at h
  simp at h
  exact h.symm

theorem insert_aborted_when_embedding_fails_witness :
    generateEmbedding failingApi "hola".data = .error (Err.apiStatus "internal error".data) ∧
    (insertText failingApi (fun _ _ => none) { documents := [("a".data, "[1.000000]".data)] }
        "hola".data
      = ({ documents := [("a".data, "[1.000000]".data)] },
          some (Err.apiStatus "internal error".data)) ∧
      (insertText failingApi (fun _ _ => none)
          { documents := [("a".data, "[1.000000]".data)] } "hola".data).1.documents
        = ({ documents := [("a".data, "[1.000000]".data)] } : Store).documents ∧
      (∀ body, failingApi.post "hola".data = .ok { statusCode := 500, body := body } →
        Err.apiStatus "internal error".data = Err.apiStatus body)) :=
  ⟨by decide, insert_aborted_when_embedding_fails failingApi (fun _ _ => none)
    { documents := [("a".data, "[1.000000]".data)] } "hola".data
    (Err.apiStatus "internal error".data) (by decide)⟩
